import Mathlib

/-! Shallow embedding of the tagge_rs release tool (src/main.rs, src/args.rs,
src/version.rs) together with the semver-crate version grammar and ordering
that `main.rs` relies on through `semver::Version`.

Definitions come first, then the verification theorems.
-/

/-- Semantic version as held by the semver crate's `Version`: the numeric
core plus the prerelease and build-metadata identifier lists (one entry per
dot-separated identifier). -/
structure SemVer where
  major : Nat
  minor : Nat
  patch : Nat
  pre : List String
  build : List String
deriving DecidableEq, Repr

/-- Comparator on `Nat`, mirroring `u64::cmp`. -/
def cmpN (a b : Nat) : Ordering :=
  if a < b then .lt else if a = b then .eq else .gt

/-- Comparator on characters by code point (Rust byte order on ASCII data). -/
def cmpChar (a b : Char) : Ordering := cmpN a.toNat b.toNat

/-- Lexicographic list comparator; a strict prefix sorts below the longer
list, matching how the semver crate walks identifier sequences. -/
def cmpList {α : Type} (f : α → α → Ordering) : List α → List α → Ordering
  | [], [] => .eq
  | [], _ :: _ => .lt
  | _ :: _, [] => .gt
  | a :: as, b :: bs => (f a b).then (cmpList f as bs)

/-- Lexicographic string comparison (Rust `str::cmp` on ASCII content). -/
def cmpStr (a b : String) : Ordering := cmpList cmpChar a.data b.data

/-- An identifier consisting solely of ASCII digits. -/
def isNumericId (s : String) : Bool := s.data.all (·.isDigit)

/-- semver crate `Prerelease` identifier comparison: all-digit identifiers
sort below alphanumeric ones and compare by length then lexicographically
(which is numeric-value order, since parsed identifiers carry no leading
zero); alphanumeric identifiers compare lexicographically. -/
def cmpPreId (a b : String) : Ordering :=
  match isNumericId a, isNumericId b with
  | true, true => (cmpN a.length b.length).then (cmpStr a b)
  | true, false => .lt
  | false, true => .gt
  | false, false => cmpStr a b

/-- semver crate `Prerelease` ordering: an empty prerelease (a plain release)
sorts above every nonempty prerelease; nonempty identifier lists compare
lexicographically. -/
def cmpPre : List String → List String → Ordering
  | [], [] => .eq
  | [], _ :: _ => .gt
  | _ :: _, [] => .lt
  | a :: as, b :: bs => (cmpPreId a b).then (cmpList cmpPreId as bs)

/-- Leading zeros stripped from an identifier, as in the semver crate's
`BuildMetadata` comparison. -/
def trimZeros (s : String) : List Char := s.data.dropWhile (· == '0')

/-- semver crate `BuildMetadata` identifier comparison: all-digit identifiers
(leading zeros allowed here) order as 0 < 00 < 1 < 01 < 001 < 2 < ... and sort
below alphanumeric identifiers, which compare lexicographically. -/
def cmpBuildId (a b : String) : Ordering :=
  match isNumericId a, isNumericId b with
  | true, true =>
      (cmpN (trimZeros a).length (trimZeros b).length).then
        ((cmpList cmpChar (trimZeros a) (trimZeros b)).then (cmpN a.length b.length))
  | true, false => .lt
  | false, true => .gt
  | false, false => cmpStr a b

/-- semver crate `Version::cmp`: major, then minor, then patch, then
prerelease precedence, then build metadata (the crate's total order). -/
def cmpVersion (a b : SemVer) : Ordering :=
  (cmpN a.major b.major).then
    ((cmpN a.minor b.minor).then
      ((cmpN a.patch b.patch).then
        ((cmpPre a.pre b.pre).then (cmpList cmpBuildId a.build b.build))))

/-- Characters permitted inside a prerelease or build identifier. -/
def identChar (c : Char) : Bool := c.isAlphanum || c == '-'

/-- Value of a digit run. -/
def digitsVal (ds : List Char) : Nat :=
  ds.foldl (fun a c => a * 10 + (c.toNat - '0'.toNat)) 0

/-- semver crate `numeric_identifier`: a nonempty run of digits with no
leading zero whose value fits in a u64. -/
def parseNum (cs : List Char) : Option (Nat × List Char) :=
  let ds := cs.takeWhile (·.isDigit)
  let rest := cs.dropWhile (·.isDigit)
  if ds.isEmpty then none
  else if ds.head? == some '0' && ds.length > 1 then none
  else if digitsVal ds < 2 ^ 64 then some (digitsVal ds, rest) else none

/-- semver crate dot-separated identifier segments: each segment is a
nonempty run over [0-9A-Za-z-]; in prerelease position an all-digit segment
must not carry a leading zero. The fuel argument only bounds recursion depth
(each step consumes at least one input character). -/
def parseSegs (isPre : Bool) : Nat → List Char → Option (List String × List Char)
  | 0, _ => none
  | fuel + 1, cs =>
    let seg := cs.takeWhile identChar
    let rest := cs.dropWhile identChar
    if seg.isEmpty then none
    else if isPre && seg.all (·.isDigit) && seg.head? == some '0' && seg.length > 1 then none
    else
      match rest with
      | '.' :: rest2 => (parseSegs isPre fuel rest2).map (fun x => (String.mk seg :: x.1, x.2))
      | _ => some ([String.mk seg], rest)

/-- semver crate `Version::parse` on an (already stripped) tag string:
`major.minor.patch[-prerelease][+build]`, consuming the entire input and
yielding nothing on any malformed shape. -/
def parseVersion (s : String) : Option SemVer :=
  match parseNum s.data with
  | none => none
  | some (maj, r1) =>
    match r1 with
    | '.' :: r1a =>
      match parseNum r1a with
      | none => none
      | some (mino, r2) =>
        match r2 with
        | '.' :: r2a =>
          match parseNum r2a with
          | none => none
          | some (pat, r3) =>
            let preRes : Option (List String × List Char) :=
              match r3 with
              | '-' :: r => parseSegs true (r.length + 1) r
              | _ => some ([], r3)
            match preRes with
            | none => none
            | some (pre, r4) =>
              let buildRes : Option (List String × List Char) :=
                match r4 with
                | '+' :: r => parseSegs false (r.length + 1) r
                | _ => some ([], r4)
              match buildRes with
              | none => none
              | some (bld, r5) =>
                if r5.isEmpty then some ⟨maj, mino, pat, pre, bld⟩ else none
        | _ => none
    | _ => none

/-- Per-name candidate of `latest_tag`: `tag_name.trim_start_matches('v')`
(which removes every leading 'v') followed by `Version::parse`. -/
def tagCandidate (name : String) : Option SemVer :=
  parseVersion (String.mk (name.data.dropWhile (· == 'v')))

/-- One iteration of the `latest_tag` scan loop: a name that fails to parse
leaves the running state untouched; otherwise the running maximum is kept
whenever `ver <= latest_ver`, so only a strictly greater version replaces
it (first-encountered wins on ties). -/
def scanStep (latest : Option (SemVer × String)) (name : String) :
    Option (SemVer × String) :=
  match tagCandidate name with
  | none => latest
  | some ver =>
    match latest with
    | none => some (ver, name)
    | some (lv, ln) => if cmpVersion ver lv = .gt then some (ver, name) else some (lv, ln)

/-- The name-scan phase of `latest_tag` over the repository's tag names. -/
def latest_tag_scan (names : List String) : Option (SemVer × String) :=
  names.foldl scanStep none

/-- Abstract repository as `latest_tag` consumes it: the (UTF-8) tag names
and the peel capability, i.e. `revparse_single("refs/tags/<name>")` followed
by `peel_to_tag`, returning the annotated tag object (as an opaque id) or
nothing for a lightweight tag or lookup failure. -/
structure Repo where
  tagNames : List String
  peel : String → Option Nat

/-- Embeds `latest_tag`: scan every tag name for the greatest parsed version, then
resolve the single winning name and require it to peel to an annotated tag. -/
def latest_tag (repo : Repo) : Option (Nat × SemVer) :=
  match latest_tag_scan repo.tagNames with
  | none => none
  | some (v, name) => (repo.peel name).map (fun t => (t, v))

/-- The `--bump` argument values from args.rs. -/
inductive VersionBump
  | patch
  | minor
  | major
deriving DecidableEq, Repr

/-- Embeds `bump_version` from main.rs: clone the latest version and adjust the
numeric components for the requested bump kind. -/
def bump_version (latest_version : SemVer) (bump : VersionBump) : SemVer :=
  match bump with
  | .major => { latest_version with major := latest_version.major + 1, minor := 0, patch := 0 }
  | .minor => { latest_version with minor := latest_version.minor + 1, patch := 0 }
  | .patch => { latest_version with patch := latest_version.patch + 1 }

/-- Loop body of `generate_changelog`: the accumulator carries the string
built so far and the `first` flag; the first iteration writes the
"Changelog:" header, every iteration appends one "\n - msg" line. -/
def changelogStep (acc : String × Bool) (msg : String) : String × Bool :=
  let s := if acc.2 then acc.1 ++ "Changelog:" else acc.1
  (s ++ "\n - " ++ msg, false)

/-- Embeds `generate_changelog`: a fold of `changelogStep` over the commit messages
in input order. Empty input never enters the loop, leaving the empty
string. -/
def generate_changelog (commit_msgs : List String) : String :=
  (commit_msgs.foldl changelogStep ("", true)).1

/-- Embeds `print_changelog`, modelled as the exact text it prints (each `println!`
appends a newline). -/
def print_changelog (commit_msgs : List String) : String :=
  let changelog := generate_changelog commit_msgs
  if changelog.isEmpty then "No new commits since the latest tag.\n"
  else "Commits in the new tag:\n\n" ++ changelog ++ "\n"

/-- Embeds `fetch_prs`: one API call per commit sha, where `api sha = some pulls`
models an HTTP success carrying the PR numbers for that commit and
`api sha = none` models a failed request (`unwrap_or_default` turns it into
no pairs); `join_all` keeps input order and the per-sha pair lists are
flattened into one association list. -/
def fetch_prs (commit_shas : List String) (api : String → Option (List Nat)) :
    List (String × Nat) :=
  (commit_shas.map (fun sha =>
    match api sha with
    | some pulls => pulls.map (fun pr => (sha, pr))
    | none => [])).flatten

/-- main's PR lookup over the merged association list: `find_map` returning
the number of the first pair whose sha matches the commit. -/
def prLookup (prs : List (String × Nat)) (sha : String) : Option Nat :=
  (prs.find? (fun p => p.1 == sha)).map (fun p => p.2)

/-- The commit-message formatting closure in main: optionally the first 7
characters of the full commit id plus a space, then the summary, then — only
when PR data was fetched — either " (#N)" for the first matching PR or
" (N/A)" when no pair matches. -/
def format_commit_msg (use_sha : Bool) (prs : Option (List (String × Nat)))
    (id summary : String) : String :=
  let msg : String := ""
  let msg := if use_sha then msg ++ String.mk (id.data.take 7) ++ " " else msg
  let msg := msg ++ summary
  match prs with
  | none => msg
  | some l =>
    match prLookup l id with
    | some n => msg ++ " (#" ++ toString n ++ ")"
    | none => msg ++ " (N/A)"

/-- Outcome of main's GitHub-token check. -/
inductive TokenGate
  | stop
  | proceed (token : Option String)
deriving DecidableEq, Repr

/-- main's token check: when `use_pr` is set, take the `--gh-token` argument
or else the `GH_TOKEN` environment value (`none` models an unset variable);
when neither exists the error text is printed and main returns early. -/
def token_gate (use_pr : Bool) (gh_token : Option String)
    (env_gh_token : Option String) : TokenGate :=
  if use_pr then
    match gh_token with
    | some t => .proceed (some t)
    | none =>
      match env_gh_token with
      | some t => .proceed (some t)
      | none => .stop
  else .proceed none

/-- main from the token check through tag resolution: `none` when the run
stopped at the token gate (before touching the repository's tags), otherwise
the `latest_tag` result. -/
def run_to_tag (use_pr : Bool) (gh_token env_gh_token : Option String)
    (repo : Repo) : Option (Option (Nat × SemVer)) :=
  match token_gate use_pr gh_token env_gh_token with
  | .stop => none
  | .proceed _ => some (latest_tag repo)

/-- Observable scheduling events of main; the number identifies which
`Repository` handle an operation uses (0 = the handle opened at startup and
used for all object-graph reads, 1 = the separate handle opened inside the
`spawn_blocking` closure for the fetch task). -/
inductive Ev
  | spawnFetch (handle : Nat)
  | awaitFetch
  | resolveTags (handle : Nat)
  | walkCommits (handle : Nat)
  | startEnrich
  | joinFetchEnrich
  | awaitEnrich
  | doFormat
deriving DecidableEq, Repr

/-- main's control flow as an event trace: without `--no-fetch` the fetch
task is spawned on its own repository handle and, when PR data was not
requested, awaited immediately; tag resolution and the commit walk then run
on the original handle; with `use_pr` the PR fetch starts and is awaited
together with the git fetch in one `tokio::join!`; message formatting (the
lazy commit-message iterator is consumed by the changelog/print calls)
happens last. -/
def main_trace (no_fetch use_pr : Bool) : List Ev :=
  (if no_fetch then [] else [.spawnFetch 1] ++ (if use_pr then [] else [.awaitFetch])) ++
  [.resolveTags 0, .walkCommits 0] ++
  (if use_pr then
    [.startEnrich] ++ (if no_fetch then [.awaitEnrich] else [.joinFetchEnrich])
   else []) ++
  [.doFormat]

/-- Event `a` occurs strictly before event `b` in the trace. -/
def precedes (a b : Ev) (tr : List Ev) : Prop :=
  ∃ l1 l2 l3, tr = l1 ++ a :: (l2 ++ b :: l3)

/-- A comparator that behaves like the `compare` of a linear order: `eq`
exactly on equal arguments, `lt` is the mirror of `gt`, and `lt` is
transitive. -/
structure LawfulCmp {α : Type} (f : α → α → Ordering) : Prop where
  eq_iff : ∀ a b, f a b = .eq ↔ a = b
  lt_iff_gt : ∀ a b, f a b = .lt ↔ f b a = .gt
  lt_trans : ∀ a b c, f a b = .lt → f b c = .lt → f a c = .lt

/-- Example repository for the peel behaviour of `latest_tag`: the highest
version name is a lightweight tag while a lower version is annotated. -/
def repoNoFallback : Repo where
  tagNames := ["v1.0.0", "v0.9.0"]
  peel := fun n => if n == "v0.9.0" then some 9 else none

/-- Example API for PR enrichment: commit "a" has two PRs, others none. -/
def apiTwoPrs : String → Option (List Nat) :=
  fun s => if s == "a" then some [42, 7] else some []

/-- Example APIs for failure isolation: the request for commit "b" fails in
the first and succeeds in the second; both agree elsewhere. -/
def apiFailB : String → Option (List Nat) :=
  fun s => if s == "a" then some [5] else if s == "c" then some [9] else none

/-- Companion of `apiFailB` where the request for "b" succeeds. -/
def apiOkB : String → Option (List Nat) :=
  fun s => if s == "b" then some [11] else apiFailB s

/-! Section: String and Ordering helper lemmas -/

theorem str_ext {a b : String} (h : a.data = b.data) : a = b := by
  cases a; cases b; exact congrArg String.mk h

theorem str_data_append (a b : String) : (a ++ b).data = a.data ++ b.data := by
  cases a; cases b; rfl

theorem then_eq_eq {o p : Ordering} : o.then p = .eq ↔ o = .eq ∧ p = .eq := by
  cases o <;> cases p <;> simp [Ordering.then]

theorem then_eq_lt {o p : Ordering} : o.then p = .lt ↔ o = .lt ∨ (o = .eq ∧ p = .lt) := by
  cases o <;> cases p <;> simp [Ordering.then]

theorem then_eq_gt {o p : Ordering} : o.then p = .gt ↔ o = .gt ∨ (o = .eq ∧ p = .gt) := by
  cases o <;> cases p <;> simp [Ordering.then]

/-! Section: Lawfulness of the embedded comparators -/

theorem LawfulCmp.refl_eq {α : Type} {f : α → α → Ordering} (hf : LawfulCmp f)
    (a : α) : f a a = .eq :=
  (hf.eq_iff a a).mpr rfl

theorem LawfulCmp.le_lt_trans {α : Type} {f : α → α → Ordering} (hf : LawfulCmp f)
    {a b c : α} (h1 : f a b ≠ .gt) (h2 : f b c = .lt) : f a c = .lt := by
  rcases h : f a b with _ | _ | _
  · exact hf.lt_trans a b c h h2
  · rw [hf.eq_iff] at h; subst h; exact h2
  · exact absurd h h1

theorem LawfulCmp.comap {α β : Type} {f : β → β → Ordering} (hf : LawfulCmp f)
    (g : α → β) (hinj : Function.Injective g) :
    LawfulCmp (fun a b => f (g a) (g b)) where
  eq_iff a b := by rw [hf.eq_iff]; exact ⟨fun h => hinj h, fun h => by rw [h]⟩
  lt_iff_gt a b := hf.lt_iff_gt _ _
  lt_trans a b c := hf.lt_trans _ _ _

theorem LawfulCmp.prod {α β : Type} {f : α → α → Ordering} {g : β → β → Ordering}
    (hf : LawfulCmp f) (hg : LawfulCmp g) :
    LawfulCmp (fun x y : α × β => (f x.1 y.1).then (g x.2 y.2)) where
  eq_iff x y := by rw [then_eq_eq, hf.eq_iff, hg.eq_iff, Prod.ext_iff]
  lt_iff_gt x y := by
    rw [then_eq_lt, then_eq_gt, hf.lt_iff_gt, hg.lt_iff_gt, hf.eq_iff, hf.eq_iff]
    constructor
    · rintro (h | ⟨h1, h2⟩)
      · exact Or.inl h
      · exact Or.inr ⟨h1.symm, h2⟩
    · rintro (h | ⟨h1, h2⟩)
      · exact Or.inl h
      · exact Or.inr ⟨h1.symm, h2⟩
  lt_trans x y z hxy hyz := by
    rw [then_eq_lt] at hxy hyz ⊢
    rcases hxy with h1 | ⟨h1, h2⟩ <;> rcases hyz with h3 | ⟨h3, h4⟩
    · exact Or.inl (hf.lt_trans _ _ _ h1 h3)
    · rw [hf.eq_iff] at h3; rw [h3] at h1; exact Or.inl h1
    · rw [hf.eq_iff] at h1; rw [← h1] at h3; exact Or.inl h3
    · rw [hf.eq_iff] at h1 h3
      exact Or.inr ⟨(hf.eq_iff _ _).mpr (h1.trans h3), hg.lt_trans _ _ _ h2 h4⟩

theorem cmpN_lawful : LawfulCmp cmpN where
  eq_iff a b := by unfold cmpN; split_ifs <;> simp <;> omega
  lt_iff_gt a b := by unfold cmpN; split_ifs <;> simp <;> omega
  lt_trans a b c h1 h2 := by
    unfold cmpN at h1 h2 ⊢; split_ifs at h1 h2 ⊢ <;> simp_all <;> omega

theorem char_toNat_inj : Function.Injective Char.toNat := by
  intro a b h
  exact Char.ext (UInt32.ext h)

theorem cmpChar_lawful : LawfulCmp cmpChar :=
  cmpN_lawful.comap Char.toNat char_toNat_inj

theorem cmpList_lawful {α : Type} {f : α → α → Ordering} (hf : LawfulCmp f) :
    LawfulCmp (cmpList f) := by
  have heq : ∀ a b, cmpList f a b = .eq ↔ a = b := by
    intro a
    induction a with
    | nil => intro b; cases b <;> simp [cmpList]
    | cons x xs ih =>
      intro b
      cases b with
      | nil => simp [cmpList]
      | cons y ys => simp [cmpList, then_eq_eq, hf.eq_iff, ih]
  refine ⟨heq, ?_, ?_⟩
  · intro a
    induction a with
    | nil => intro b; cases b <;> simp [cmpList]
    | cons x xs ih =>
      intro b
      cases b with
      | nil => simp [cmpList]
      | cons y ys =>
        show (f x y).then (cmpList f xs ys) = .lt ↔ (f y x).then (cmpList f ys xs) = .gt
        rw [then_eq_lt, then_eq_gt, hf.lt_iff_gt, ih, hf.eq_iff, hf.eq_iff]
        constructor
        · rintro (h | ⟨h1, h2⟩)
          · exact Or.inl h
          · exact Or.inr ⟨h1.symm, h2⟩
        · rintro (h | ⟨h1, h2⟩)
          · exact Or.inl h
          · exact Or.inr ⟨h1.symm, h2⟩
  · intro a
    induction a with
    | nil =>
      intro b c h1 h2
      cases b with
      | nil => simp [cmpList] at h1
      | cons y ys =>
        cases c with
        | nil => simp [cmpList] at h2
        | cons z zs => simp [cmpList]
    | cons x xs ih =>
      intro b c h1 h2
      cases b with
      | nil => simp [cmpList] at h1
      | cons y ys =>
        cases c with
        | nil => simp [cmpList] at h2
        | cons z zs =>
          rw [show cmpList f (x :: xs) (y :: ys) = (f x y).then (cmpList f xs ys) from rfl,
            then_eq_lt] at h1
          rw [show cmpList f (y :: ys) (z :: zs) = (f y z).then (cmpList f ys zs) from rfl,
            then_eq_lt] at h2
          rw [show cmpList f (x :: xs) (z :: zs) = (f x z).then (cmpList f xs zs) from rfl,
            then_eq_lt]
          rcases h1 with h1 | ⟨h1, h1b⟩ <;> rcases h2 with h2 | ⟨h2, h2b⟩
          · exact Or.inl (hf.lt_trans _ _ _ h1 h2)
          · rw [hf.eq_iff] at h2; rw [h2] at h1; exact Or.inl h1
          · rw [hf.eq_iff] at h1; rw [← h1] at h2; exact Or.inl h2
          · rw [hf.eq_iff] at h1 h2
            exact Or.inr ⟨(hf.eq_iff _ _).mpr (h1.trans h2), ih _ _ h1b h2b⟩

theorem str_data_inj : Function.Injective String.data := by
  intro a b h; exact str_ext h

theorem cmpStr_lawful : LawfulCmp cmpStr :=
  (cmpList_lawful cmpChar_lawful).comap String.data str_data_inj

theorem gNum_lawful :
    LawfulCmp (fun a b : String => (cmpN a.length b.length).then (cmpStr a b)) :=
  (cmpN_lawful.prod cmpStr_lawful).comap (fun s => (s.length, s))
    (fun _ _ h => congrArg Prod.snd h)

theorem cmpPreId_lawful : LawfulCmp cmpPreId := by
  refine ⟨?_, ?_, ?_⟩
  · intro a b
    rcases ha : isNumericId a with _ | _ <;> rcases hb : isNumericId b with _ | _ <;>
      simp only [cmpPreId, ha, hb]
    all_goals first
      | exact cmpStr_lawful.eq_iff a b
      | exact gNum_lawful.eq_iff a b
      | exact ⟨fun h => absurd h (by decide),
          fun h => by subst h; rw [ha] at hb; exact absurd hb (by decide)⟩
  · intro a b
    rcases ha : isNumericId a with _ | _ <;> rcases hb : isNumericId b with _ | _ <;>
      simp only [cmpPreId, ha, hb]
    all_goals first
      | decide
      | exact cmpStr_lawful.lt_iff_gt a b
      | exact gNum_lawful.lt_iff_gt a b
  · intro a b c h1 h2
    rcases ha : isNumericId a with _ | _ <;> rcases hb : isNumericId b with _ | _ <;>
      rcases hc : isNumericId c with _ | _ <;>
      simp only [cmpPreId, ha, hb, hc] at h1 h2 ⊢
    all_goals first
      | rfl
      | exact absurd h1 (by decide)
      | exact absurd h2 (by decide)
      | exact cmpStr_lawful.lt_trans a b c h1 h2
      | exact gNum_lawful.lt_trans a b c h1 h2

theorem cmpPre_lawful : LawfulCmp cmpPre := by
  have hl := cmpList_lawful cmpPreId_lawful
  refine ⟨?_, ?_, ?_⟩
  · intro a b
    match a, b with
    | [], [] => simp [cmpPre]
    | [], _ :: _ => simp [cmpPre]
    | _ :: _, [] => simp [cmpPre]
    | x :: xs, y :: ys => exact hl.eq_iff (x :: xs) (y :: ys)
  · intro a b
    match a, b with
    | [], [] => simp [cmpPre]
    | [], _ :: _ => simp [cmpPre]
    | _ :: _, [] => simp [cmpPre]
    | x :: xs, y :: ys => exact hl.lt_iff_gt (x :: xs) (y :: ys)
  · intro a b c h1 h2
    match a, b, c with
    | [], [], _ => exact absurd h1 (by simp [cmpPre])
    | [], _ :: _, _ => exact absurd h1 (by simp [cmpPre])
    | _ :: _, [], [] => exact absurd h2 (by simp [cmpPre])
    | _ :: _, [], _ :: _ => exact absurd h2 (by simp [cmpPre])
    | _ :: _, _ :: _, [] => rfl
    | x :: xs, y :: ys, z :: zs => exact hl.lt_trans (x :: xs) (y :: ys) (z :: zs) h1 h2

theorem zeros_eq_of_length {l l' : List Char} (hl : ∀ c ∈ l, c = '0')
    (hl' : ∀ c ∈ l', c = '0') (h : l.length = l'.length) : l = l' := by
  rw [List.eq_replicate_of_mem hl, List.eq_replicate_of_mem hl', h]

theorem buildKey_inj :
    Function.Injective (fun s : String => ((trimZeros s).length, (trimZeros s, s.length))) := by
  intro a b h
  simp only [Prod.mk.injEq] at h
  obtain ⟨-, h2, h3⟩ := h
  apply str_ext
  have hda := (List.takeWhile_append_dropWhile (fun c => c == '0') a.data).symm
  have hdb := (List.takeWhile_append_dropWhile (fun c => c == '0') b.data).symm
  have hta : ∀ c ∈ a.data.takeWhile (fun c => c == '0'), c = '0' := by
    intro c hc
    have := List.mem_takeWhile_imp hc
    simpa using this
  have htb : ∀ c ∈ b.data.takeWhile (fun c => c == '0'), c = '0' := by
    intro c hc
    have := List.mem_takeWhile_imp hc
    simpa using this
  have hdl : a.data.length = b.data.length := h3
  have hla : a.data.length =
      (a.data.takeWhile (fun c => c == '0')).length + (trimZeros a).length := by
    conv_lhs => rw [hda]
    rw [List.length_append]
    rfl
  have hlb : b.data.length =
      (b.data.takeWhile (fun c => c == '0')).length + (trimZeros b).length := by
    conv_lhs => rw [hdb]
    rw [List.length_append]
    rfl
  have h2l : (trimZeros a).length = (trimZeros b).length := by rw [h2]
  have hlen : (a.data.takeWhile (fun c => c == '0')).length =
      (b.data.takeWhile (fun c => c == '0')).length := by omega
  calc a.data
      = a.data.takeWhile (fun c => c == '0') ++ trimZeros a := hda
    _ = b.data.takeWhile (fun c => c == '0') ++ trimZeros b := by
        rw [zeros_eq_of_length hta htb hlen, h2]
    _ = b.data := hdb.symm

theorem gBuild_lawful :
    LawfulCmp (fun a b : String =>
      (cmpN (trimZeros a).length (trimZeros b).length).then
        ((cmpList cmpChar (trimZeros a) (trimZeros b)).then (cmpN a.length b.length))) :=
  (cmpN_lawful.prod ((cmpList_lawful cmpChar_lawful).prod cmpN_lawful)).comap
    (fun s => ((trimZeros s).length, (trimZeros s, s.length))) buildKey_inj

theorem cmpBuildId_lawful : LawfulCmp cmpBuildId := by
  refine ⟨?_, ?_, ?_⟩
  · intro a b
    rcases ha : isNumericId a with _ | _ <;> rcases hb : isNumericId b with _ | _ <;>
      simp only [cmpBuildId, ha, hb]
    all_goals first
      | exact cmpStr_lawful.eq_iff a b
      | exact gBuild_lawful.eq_iff a b
      | exact ⟨fun h => absurd h (by decide),
          fun h => by subst h; rw [ha] at hb; exact absurd hb (by decide)⟩
  · intro a b
    rcases ha : isNumericId a with _ | _ <;> rcases hb : isNumericId b with _ | _ <;>
      simp only [cmpBuildId, ha, hb]
    all_goals first
      | decide
      | exact cmpStr_lawful.lt_iff_gt a b
      | exact gBuild_lawful.lt_iff_gt a b
  · intro a b c h1 h2
    rcases ha : isNumericId a with _ | _ <;> rcases hb : isNumericId b with _ | _ <;>
      rcases hc : isNumericId c with _ | _ <;>
      simp only [cmpBuildId, ha, hb, hc] at h1 h2 ⊢
    all_goals first
      | rfl
      | exact absurd h1 (by decide)
      | exact absurd h2 (by decide)
      | exact cmpStr_lawful.lt_trans a b c h1 h2
      | exact gBuild_lawful.lt_trans a b c h1 h2

theorem semverKey_inj :
    Function.Injective (fun v : SemVer => (v.major, (v.minor, (v.patch, (v.pre, v.build))))) := by
  intro a b h
  simp only [Prod.mk.injEq] at h
  obtain ⟨h1, h2, h3, h4, h5⟩ := h
  cases a; cases b
  simp_all

theorem cmpVersion_lawful : LawfulCmp cmpVersion :=
  (cmpN_lawful.prod (cmpN_lawful.prod (cmpN_lawful.prod
    (cmpPre_lawful.prod (cmpList_lawful cmpBuildId_lawful))))).comap
    (fun v : SemVer => (v.major, (v.minor, (v.patch, (v.pre, v.build))))) semverKey_inj

/-! Section: The latest_tag name scan -/

theorem latest_tag_scan_append (ns : List String) (n : String) :
    latest_tag_scan (ns ++ [n]) = scanStep (latest_tag_scan ns) n := by
  unfold latest_tag_scan
  rw [List.foldl_append]
  rfl

/-- Full characterization of the scan loop: a `none` result means no name
parsed; a `some (v, w)` result means `w` itself parses to `v`, no name parses
to a strictly greater version, and every name strictly before `w` parses to a
strictly smaller version or not at all (so the first name attaining the
maximum wins). -/
theorem latest_tag_scan_spec (names : List String) :
    (latest_tag_scan names = none → ∀ n ∈ names, tagCandidate n = none) ∧
    (∀ v w, latest_tag_scan names = some (v, w) →
      tagCandidate w = some v ∧
      (∀ n ∈ names, ∀ u, tagCandidate n = some u → cmpVersion u v ≠ .gt) ∧
      ∃ l r, names = l ++ w :: r ∧
        ∀ n ∈ l, ∀ u, tagCandidate n = some u → cmpVersion u v = .lt) := by
  induction names using List.reverseRecOn with
  | nil =>
    constructor
    · intro _ n hn; cases hn
    · intro v w h; exact Option.noConfusion h
  | append_singleton ns m ih =>
    have hstep := latest_tag_scan_append ns m
    rcases hbase : latest_tag_scan ns with _ | ⟨v0, w0⟩
    · have hnone := ih.1 hbase
      rcases hm : tagCandidate m with _ | u
      · have hres : latest_tag_scan (ns ++ [m]) = none := by
          rw [hstep, hbase]; simp [scanStep, hm]
        constructor
        · intro _ n hn
          rcases List.mem_append.mp hn with hn | hn
          · exact hnone n hn
          · rw [List.mem_singleton.mp hn]; exact hm
        · intro v w h; rw [hres] at h; exact Option.noConfusion h
      · have hres : latest_tag_scan (ns ++ [m]) = some (u, m) := by
          rw [hstep, hbase]; simp [scanStep, hm]
        constructor
        · intro h; rw [hres] at h; exact Option.noConfusion h
        · intro v w h
          rw [hres] at h
          simp only [Option.some.injEq, Prod.mk.injEq] at h
          obtain ⟨h1, h2⟩ := h
          subst h1; subst h2
          refine ⟨hm, ?_, ns, [], rfl, ?_⟩
          · intro n hn u0 hc
            rcases List.mem_append.mp hn with hn | hn
            · rw [hnone n hn] at hc; exact Option.noConfusion hc
            · rw [List.mem_singleton.mp hn] at hc
              rw [hm] at hc
              injection hc with hc; subst hc
              rw [cmpVersion_lawful.refl_eq]; simp
          · intro n hn u0 hc
            rw [hnone n hn] at hc; exact Option.noConfusion hc
    · obtain ⟨hcand0, hmax0, l, r, hsplit, hfirst⟩ := ih.2 v0 w0 hbase
      rcases hm : tagCandidate m with _ | u
      · have hres : latest_tag_scan (ns ++ [m]) = some (v0, w0) := by
          rw [hstep, hbase]; simp [scanStep, hm]
        constructor
        · intro h; rw [hres] at h; exact Option.noConfusion h
        · intro v w h
          rw [hres] at h
          simp only [Option.some.injEq, Prod.mk.injEq] at h
          obtain ⟨h1, h2⟩ := h
          subst h1; subst h2
          refine ⟨hcand0, ?_, l, r ++ [m], ?_, hfirst⟩
          · intro n hn u0 hc
            rcases List.mem_append.mp hn with hn | hn
            · exact hmax0 n hn u0 hc
            · rw [List.mem_singleton.mp hn] at hc
              rw [hm] at hc; exact Option.noConfusion hc
          · rw [hsplit]; simp
      · by_cases hcmp : cmpVersion u v0 = .gt
        · have hres : latest_tag_scan (ns ++ [m]) = some (u, m) := by
            rw [hstep, hbase]; simp [scanStep, hm, hcmp]
          have hv0u : cmpVersion v0 u = .lt := by
            rw [cmpVersion_lawful.lt_iff_gt]; exact hcmp
          constructor
          · intro h; rw [hres] at h; exact Option.noConfusion h
          · intro v w h
            rw [hres] at h
            simp only [Option.some.injEq, Prod.mk.injEq] at h
            obtain ⟨h1, h2⟩ := h
            subst h1; subst h2
            have hallLt : ∀ n ∈ ns, ∀ u0, tagCandidate n = some u0 →
                cmpVersion u0 u = .lt := by
              intro n hn u0 hc
              exact cmpVersion_lawful.le_lt_trans (hmax0 n hn u0 hc) hv0u
            refine ⟨hm, ?_, ns, [], rfl, hallLt⟩
            intro n hn u0 hc
            rcases List.mem_append.mp hn with hn | hn
            · rw [hallLt n hn u0 hc]; simp
            · rw [List.mem_singleton.mp hn] at hc
              rw [hm] at hc
              injection hc with hc; subst hc
              rw [cmpVersion_lawful.refl_eq]; simp
        · have hres : latest_tag_scan (ns ++ [m]) = some (v0, w0) := by
            rw [hstep, hbase]; simp [scanStep, hm, hcmp]
          constructor
          · intro h; rw [hres] at h; exact Option.noConfusion h
          · intro v w h
            rw [hres] at h
            simp only [Option.some.injEq, Prod.mk.injEq] at h
            obtain ⟨h1, h2⟩ := h
            subst h1; subst h2
            refine ⟨hcand0, ?_, l, r ++ [m], ?_, hfirst⟩
            · intro n hn u0 hc
              rcases List.mem_append.mp hn with hn | hn
              · exact hmax0 n hn u0 hc
              · rw [List.mem_singleton.mp hn] at hc
                rw [hm] at hc
                injection hc with hc; subst hc
                exact hcmp
            · rw [hsplit]; simp

/-- A name with no parseable version is invisible to the scan. -/
theorem latest_tag_scan_skips (l r : List String) (name : String)
    (h : tagCandidate name = none) :
    latest_tag_scan (l ++ name :: r) = latest_tag_scan (l ++ r) := by
  unfold latest_tag_scan
  rw [List.foldl_append, List.foldl_append, List.foldl_cons,
    show scanStep (List.foldl scanStep none l) name = List.foldl scanStep none l from by
      simp [scanStep, h]]

/-- No name parsing means an empty scan result. -/
theorem latest_tag_scan_eq_none (names : List String)
    (h : ∀ n ∈ names, tagCandidate n = none) :
    latest_tag_scan names = none := by
  induction names with
  | nil => rfl
  | cons n ns ih =>
    unfold latest_tag_scan at ih ⊢
    rw [List.foldl_cons, show scanStep none n = none from by
      simp [scanStep, h n (List.mem_cons_self n ns)]]
    exact ih fun m hm => h m (List.mem_cons_of_mem n hm)

/-! Section: Claim C1 -/

/-- Claim C1 (counterexample): the names "v1.0.0-alpha" and "v1.0.0" parse to
versions with identical major/minor/patch triples (1,0,0), so under the claim
as stated the first-encountered "v1.0.0-alpha" would win; the code compares
with the semver crate's full order, under which 1.0.0-alpha < 1.0.0, and
selects the later name "v1.0.0". -/
theorem claim_c1_counterexample :
    tagCandidate "v1.0.0-alpha" = some ⟨1, 0, 0, ["alpha"], []⟩ ∧
    tagCandidate "v1.0.0" = some ⟨1, 0, 0, [], []⟩ ∧
    latest_tag_scan ["v1.0.0-alpha", "v1.0.0"] = some (⟨1, 0, 0, [], []⟩, "v1.0.0") ∧
    "v1.0.0" ≠ "v1.0.0-alpha" :=
  ⟨by decide, by decide, by decide, by decide⟩

/-- Claim C1 (amended): for every set of tag names, the `latest_tag` scan
selects the name whose parsed version is strictly greatest under the semver
crate's total order (major, minor, patch, then prerelease precedence, then
build metadata) — not merely the major/minor/patch triple — comparing with
strict `>`, and when two names parse to versions equal under that full order
the first-encountered name wins: the winner itself parses to the reported
version, no name parses to a strictly greater version, and every name
occurring before the winner parses to a strictly smaller version or fails to
parse. -/
theorem latest_tag_scan_max_first (names : List String) (v : SemVer) (w : String)
    (h : latest_tag_scan names = some (v, w)) :
    tagCandidate w = some v ∧
    (∀ n ∈ names, ∀ u, tagCandidate n = some u → cmpVersion u v ≠ .gt) ∧
    ∃ l r, names = l ++ w :: r ∧
      ∀ n ∈ l, ∀ u, tagCandidate n = some u → cmpVersion u v = .lt :=
  (latest_tag_scan_spec names).2 v w h

/-- Witness for C1 at the spec's end-to-end scenario: among
["v1.2.0", "v1.3.0", "nightly-build"] the scan selects "v1.3.0" = 1.3.0. -/
theorem latest_tag_scan_max_first_witness :
    tagCandidate "v1.3.0" = some ⟨1, 3, 0, [], []⟩ ∧
    (∀ n ∈ ["v1.2.0", "v1.3.0", "nightly-build"], ∀ u, tagCandidate n = some u →
      cmpVersion u ⟨1, 3, 0, [], []⟩ ≠ .gt) ∧
    ∃ l r, ["v1.2.0", "v1.3.0", "nightly-build"] = l ++ "v1.3.0" :: r ∧
      ∀ n ∈ l, ∀ u, tagCandidate n = some u → cmpVersion u ⟨1, 3, 0, [], []⟩ = .lt :=
  latest_tag_scan_max_first ["v1.2.0", "v1.3.0", "nightly-build"] ⟨1, 3, 0, [], []⟩
    "v1.3.0" (by decide)

/-! Section: Claim C2 -/

/-- Claim C2 (counterexample): stripping exactly one leading 'v' from
"vv1.2.3" leaves "v1.2.3", which the semver grammar rejects, so under the
claim the name could never participate in resolution; the code's
`trim_start_matches('v')` strips every leading 'v', and "vv1.2.3" does
participate, as version 1.2.3. -/
theorem claim_c2_counterexample :
    parseVersion "v1.2.3" = none ∧
    latest_tag_scan ["vv1.2.3"] = some (⟨1, 2, 3, [], []⟩, "vv1.2.3") :=
  ⟨by decide, by decide⟩

/-- Claim C2 (amended): version parsing strips ALL leading 'v' characters
(not exactly one) and parses the remainder per the semver grammar, returning
`none` (never an error: the scan is a total function) on malformed input;
prepending a further 'v' never changes a candidate, and a name whose stripped
remainder does not parse never participates in resolution — deleting it from
the name list leaves the scan result unchanged. -/
theorem tag_candidate_spec (l r : List String) (name : String)
    (h : tagCandidate name = none) :
    (∀ s : String, tagCandidate ("v" ++ s) = tagCandidate s) ∧
    latest_tag_scan (l ++ name :: r) = latest_tag_scan (l ++ r) := by
  constructor
  · intro s
    rfl
  · exact latest_tag_scan_skips l r name h

/-- Witness for C2: the non-parsing "nightly-build" is skipped between two
parsing names, and one extra 'v' on "v1.0.0" changes nothing. -/
theorem tag_candidate_spec_witness :
    (∀ s : String, tagCandidate ("v" ++ s) = tagCandidate s) ∧
    latest_tag_scan (["v1.0.0"] ++ "nightly-build" :: ["v2.0.0"]) =
      latest_tag_scan (["v1.0.0"] ++ ["v2.0.0"]) :=
  tag_candidate_spec ["v1.0.0"] ["v2.0.0"] "nightly-build" (by decide)

/-! Section: Claim C3 -/

/-- Claim C3: `bump_version` with Major increments major and zeroes minor and
patch; with Minor it increments minor, zeroes patch and leaves major
untouched; with Patch it changes only the patch component (prerelease and
build are carried over unchanged in every case, as the code clones the
version); and each bump is strictly greater than its input under the version
order. -/
theorem bump_version_spec (v : SemVer) :
    ((bump_version v .major).major = v.major + 1 ∧ (bump_version v .major).minor = 0 ∧
      (bump_version v .major).patch = 0 ∧ (bump_version v .major).pre = v.pre ∧
      (bump_version v .major).build = v.build) ∧
    ((bump_version v .minor).major = v.major ∧ (bump_version v .minor).minor = v.minor + 1 ∧
      (bump_version v .minor).patch = 0 ∧ (bump_version v .minor).pre = v.pre ∧
      (bump_version v .minor).build = v.build) ∧
    ((bump_version v .patch).major = v.major ∧ (bump_version v .patch).minor = v.minor ∧
      (bump_version v .patch).patch = v.patch + 1 ∧ (bump_version v .patch).pre = v.pre ∧
      (bump_version v .patch).build = v.build) ∧
    (∀ k, cmpVersion v (bump_version v k) = .lt) := by
  obtain ⟨ma, mi, pa, pr, bu⟩ := v
  refine ⟨⟨rfl, rfl, rfl, rfl, rfl⟩, ⟨rfl, rfl, rfl, rfl, rfl⟩,
    ⟨rfl, rfl, rfl, rfl, rfl⟩, ?_⟩
  intro k
  cases k <;> simp [bump_version, cmpVersion, cmpN, Nat.lt_add_one, Ordering.then]

/-! Section: Claim C4 -/

/-- Claim C4 (counterexample): `generate_changelog` — the function producing
the "Changelog:" output the claim describes — yields the empty string on an
empty commit sequence, not the "no new commits" sentinel; the sentinel is
substituted only by `print_changelog`, and e.g. the tag-message path
(`create_tag`) receives the empty string. -/
theorem claim_c4_counterexample :
    generate_changelog [] = "" ∧
    ("" : String) ≠ "No new commits since the latest tag." :=
  ⟨rfl, by decide⟩

theorem str_append_empty (s : String) : s ++ "" = s := by
  apply str_ext
  rw [str_data_append]
  exact List.append_nil _

theorem str_empty_append (s : String) : "" ++ s = s := by
  apply str_ext
  rw [str_data_append]
  rfl

theorem str_append_assoc (a b c : String) : a ++ b ++ c = a ++ (b ++ c) := by
  apply str_ext
  simp [str_data_append, List.append_assoc]

theorem str_foldl_append (l : List String) (a : String) :
    l.foldl (fun r s => r ++ s) a = a ++ l.foldl (fun r s => r ++ s) "" := by
  induction l generalizing a with
  | nil => exact (str_append_empty a).symm
  | cons x xs ih =>
    rw [List.foldl_cons, List.foldl_cons, ih (a ++ x), ih ("" ++ x), str_empty_append,
      str_append_assoc]

theorem str_join_cons (s : String) (l : List String) :
    String.join (s :: l) = s ++ String.join l := by
  show (s :: l).foldl (fun r t => r ++ t) "" = s ++ l.foldl (fun r t => r ++ t) ""
  rw [List.foldl_cons, str_foldl_append l ("" ++ s), str_empty_append]

/-- The changelog loop after its first iteration: with the first-flag spent,
the fold appends one " - "-prefixed line per message in input order. -/
theorem generate_changelog_loop (msgs : List String) (acc : String) :
    (msgs.foldl changelogStep (acc, false)).1 =
      acc ++ String.join (msgs.map (fun m => "\n - " ++ m)) := by
  induction msgs generalizing acc with
  | nil => exact (str_append_empty acc).symm
  | cons m ms ih =>
    rw [List.foldl_cons,
      show changelogStep (acc, false) m = (acc ++ "\n - " ++ m, false) from rfl,
      ih (acc ++ "\n - " ++ m), List.map_cons, str_join_cons]
    simp [str_append_assoc]

/-- Claim C4 (amended): `generate_changelog` on an empty commit sequence
yields the empty string, and the printing wrapper `print_changelog` turns
exactly that case into the "no new commits" sentinel, so the printed
changelog is never empty; on a non-empty sequence `generate_changelog`
yields the "Changelog:" header followed by one " - "-prefixed line per
commit in input (newest-first) order, and `print_changelog` prints it under
the "Commits in the new tag:" banner. -/
theorem changelog_spec (msgs : List String) (h : msgs ≠ []) :
    print_changelog [] = "No new commits since the latest tag.\n" ∧
    print_changelog [] ≠ "" ∧
    generate_changelog msgs = "Changelog:" ++ String.join (msgs.map (fun m => "\n - " ++ m)) ∧
    print_changelog msgs = "Commits in the new tag:\n\n" ++ generate_changelog msgs ++ "\n" := by
  obtain ⟨m, ms, rfl⟩ : ∃ m ms, msgs = m :: ms := by
    cases msgs with
    | nil => exact absurd rfl h
    | cons a l => exact ⟨a, l, rfl⟩
  have hgen : generate_changelog (m :: ms) =
      "Changelog:" ++ String.join ((m :: ms).map (fun x => "\n - " ++ x)) := by
    unfold generate_changelog
    rw [List.foldl_cons,
      show changelogStep ("", true) m = ("" ++ "Changelog:" ++ "\n - " ++ m, false) from rfl,
      generate_changelog_loop, List.map_cons, str_join_cons, str_empty_append,
      str_append_assoc "Changelog:" "\n - " m,
      str_append_assoc "Changelog:" ("\n - " ++ m)]
  have hne : generate_changelog (m :: ms) ≠ "" := by
    rw [hgen]
    intro hc
    have hd := congrArg String.data hc
    rw [str_data_append, List.append_eq_nil] at hd
    exact absurd hd.1 (by decide)
  have hfalse : (generate_changelog (m :: ms)).isEmpty = false := by
    rw [Bool.eq_false_iff]
    intro hc
    exact hne ((String.isEmpty_iff _).mp hc)
  refine ⟨rfl, by decide, hgen, ?_⟩
  simp only [print_changelog, hfalse, Bool.false_eq_true, if_false]

/-- Witness for C4 at a two-commit sequence. -/
theorem changelog_spec_witness :
    print_changelog [] = "No new commits since the latest tag.\n" ∧
    print_changelog [] ≠ "" ∧
    generate_changelog ["fix parser", "add flag"] =
      "Changelog:" ++ String.join (["fix parser", "add flag"].map (fun m => "\n - " ++ m)) ∧
    print_changelog ["fix parser", "add flag"] =
      "Commits in the new tag:\n\n" ++ generate_changelog ["fix parser", "add flag"] ++ "\n" :=
  changelog_spec ["fix parser", "add flag"] (by decide)

/-! Section: Claims C5 and C8: PR enrichment -/

theorem prLookup_append (l1 l2 : List (String × Nat)) (c : String) :
    prLookup (l1 ++ l2) c = (prLookup l1 c).or (prLookup l2 c) := by
  unfold prLookup
  rw [List.find?_append]
  cases hf : List.find? (fun p => p.1 == c) l1 <;> simp [hf]

theorem prLookup_block (s c : String) (pulls : List Nat) :
    prLookup (pulls.map (fun pr => (s, pr))) c = if s = c then pulls.head? else none := by
  induction pulls with
  | nil => simp [prLookup]
  | cons p ps ih =>
    simp only [List.map_cons]
    by_cases hcs : s = c
    · subst hcs
      simp [prLookup, List.find?]
    · have hbeq : (s == c) = false := beq_eq_false_iff_ne.mpr hcs
      calc prLookup ((s, p) :: ps.map (fun pr => (s, pr))) c
          = prLookup (ps.map (fun pr => (s, pr))) c := by
            unfold prLookup
            congr 1
            simp [List.find?, hbeq]
        _ = if s = c then ps.head? else none := ih
        _ = if s = c then (p :: ps).head? else none := by rw [if_neg hcs, if_neg hcs]

/-- The merged association list behaves as one mapping keyed by commit id:
looking a commit up yields the head of its own API result (none for a
failed request or an empty PR list), regardless of every other commit. -/
theorem prLookup_fetch_prs (shas : List String) (api : String → Option (List Nat))
    (c : String) :
    prLookup (fetch_prs shas api) c =
      if c ∈ shas then ((api c).getD []).head? else none := by
  induction shas with
  | nil => simp [fetch_prs, prLookup]
  | cons s ss ih =>
    rcases has : api s with _ | pulls
    · rw [show fetch_prs (s :: ss) api = fetch_prs ss api from by simp [fetch_prs, has], ih]
      by_cases hcs : c = s
      · subst hcs
        simp [has, List.mem_cons]
      · simp [List.mem_cons, hcs]
    · rw [show fetch_prs (s :: ss) api = pulls.map (fun pr => (s, pr)) ++ fetch_prs ss api
          from by simp [fetch_prs, has], prLookup_append, prLookup_block, ih]
      by_cases hcs : s = c
      · subst hcs
        rcases pulls with _ | ⟨p, ps⟩
        · simp [has, List.mem_cons]
        · simp [has, List.mem_cons]
      · have hcs2 : c ≠ s := fun hx => hcs hx.symm
        simp [hcs, hcs2, List.mem_cons]

/-- Every pair produced by fetch_prs is keyed by a sha from the input whose
request did not fail. -/
theorem fetch_prs_keys (shas : List String) (api : String → Option (List Nat)) :
    ∀ q ∈ fetch_prs shas api, q.1 ∈ shas ∧ api q.1 ≠ none := by
  induction shas with
  | nil => intro q hq; simp [fetch_prs] at hq
  | cons s ss ih =>
    intro q hq
    rcases has : api s with _ | pulls
    · rw [show fetch_prs (s :: ss) api = fetch_prs ss api
          from by simp [fetch_prs, has]] at hq
      obtain ⟨h1, h2⟩ := ih q hq
      exact ⟨List.mem_cons_of_mem s h1, h2⟩
    · rw [show fetch_prs (s :: ss) api = pulls.map (fun pr => (s, pr)) ++ fetch_prs ss api
          from by simp [fetch_prs, has], List.mem_append] at hq
      rcases hq with hq | hq
      · obtain ⟨pr, hpr, rfl⟩ := List.mem_map.mp hq
        exact ⟨List.mem_cons_self s ss, by simp [has]⟩
      · obtain ⟨h1, h2⟩ := ih q hq
        exact ⟨List.mem_cons_of_mem s h1, h2⟩

/-- Claim C5: enrichment results are merged into one association consumed as
a mapping keyed by commit id, and when the API returns several pull requests
for one commit, the lookup used by main retains only the first discovered PR
number for that commit. -/
theorem fetch_prs_first_pr (shas : List String) (api : String → Option (List Nat))
    (c : String) (hc : c ∈ shas) (p : Nat) (ps : List Nat) (h : api c = some (p :: ps)) :
    prLookup (fetch_prs shas api) c = some p := by
  rw [prLookup_fetch_prs, if_pos hc, h]
  rfl

/-- Witness for C5: commit "a" has PRs [42, 7]; the mapping retains 42. -/
theorem fetch_prs_first_pr_witness :
    prLookup (fetch_prs ["a", "b"] apiTwoPrs) "a" = some 42 :=
  fetch_prs_first_pr ["a", "b"] apiTwoPrs "a" (by decide) 42 [7] (by decide)

/-- Claim C8: a failing per-commit PR request degrades to "no PR for this
commit" — no pair for that commit is ever produced, its lookup is none, the
enrichment as a whole still succeeds (fetch_prs is total) — and the mapping
for every other commit is exactly what it would have been had that request
succeeded. -/
theorem fetch_prs_failure_isolated (shas : List String)
    (api api2 : String → Option (List Nat)) (c : String)
    (hfail : api c = none) (hagree : ∀ s, s ≠ c → api2 s = api s) :
    prLookup (fetch_prs shas api) c = none ∧
    (∀ q ∈ fetch_prs shas api, q.1 ≠ c) ∧
    (∀ d, d ≠ c → prLookup (fetch_prs shas api) d = prLookup (fetch_prs shas api2) d) := by
  refine ⟨?_, ?_, ?_⟩
  · rw [prLookup_fetch_prs]
    by_cases hc : c ∈ shas <;> simp [hc, hfail]
  · intro q hq heq
    have h2 := (fetch_prs_keys shas api q hq).2
    rw [heq] at h2
    exact h2 hfail
  · intro d hd
    rw [prLookup_fetch_prs, prLookup_fetch_prs, hagree d hd]

/-- Witness for C8: the request for commit "b" fails; "a" and "c" retain
exactly the mapping they get when "b" succeeds. -/
theorem fetch_prs_failure_isolated_witness :
    prLookup (fetch_prs ["a", "b", "c"] apiFailB) "b" = none ∧
    (∀ q ∈ fetch_prs ["a", "b", "c"] apiFailB, q.1 ≠ "b") ∧
    (∀ d, d ≠ "b" → prLookup (fetch_prs ["a", "b", "c"] apiFailB) d =
      prLookup (fetch_prs ["a", "b", "c"] apiOkB) d) :=
  fetch_prs_failure_isolated ["a", "b", "c"] apiFailB apiOkB "b" (by decide)
    (fun s hs => by simp [apiOkB, beq_iff_eq, hs])

/-! Section: Claim C6 -/

/-- Claim C6: each formatted commit line is exactly: the first 7 characters
of the full commit id plus a separating space when SHA annotation was
requested (nothing otherwise), then the commit summary, then " (#N)" when PR
data was fetched and N is the first PR number recorded for this commit, or
" (N/A)" when PR data was fetched but no pair matches this commit; when PR
lookup was not requested neither suffix appears. -/
theorem format_commit_msg_spec (use_sha : Bool) (prs : Option (List (String × Nat)))
    (id summary : String) :
    format_commit_msg use_sha prs id summary =
      (if use_sha then String.mk (id.data.take 7) ++ " " else "") ++ summary ++
      (match prs with
       | none => ""
       | some l =>
         match prLookup l id with
         | some n => " (#" ++ toString n ++ ")"
         | none => " (N/A)") := by
  unfold format_commit_msg
  rcases prs with _ | l
  · cases use_sha <;> simp [str_append_empty, str_empty_append]
  · rcases hl : prLookup l id with _ | n <;> cases use_sha <;>
      simp [hl, str_empty_append, str_append_assoc]

/-! Section: Claim C7 -/

/-- Claim C7: when the name winning the version scan cannot be peeled to an
annotated tag object, latest_tag returns nothing — it does not fall back to
the next-highest annotated tag, since only the single winning name is ever
resolved — and it likewise returns nothing when no tag name parses at all. -/
theorem latest_tag_no_fallback (repo : Repo) :
    (∀ v w, latest_tag_scan repo.tagNames = some (v, w) → repo.peel w = none →
      latest_tag repo = none) ∧
    ((∀ n ∈ repo.tagNames, tagCandidate n = none) → latest_tag repo = none) := by
  constructor
  · intro v w hscan hpeel
    unfold latest_tag
    rw [hscan]
    simp [hpeel]
  · intro hall
    unfold latest_tag
    rw [latest_tag_scan_eq_none repo.tagNames hall]

/-- Witness for C7: the winning "v1.0.0" is lightweight, so resolution fails
even though the lower "v0.9.0" is annotated. -/
theorem latest_tag_no_fallback_witness :
    latest_tag repoNoFallback = none ∧ repoNoFallback.peel "v0.9.0" = some 9 :=
  ⟨(latest_tag_no_fallback repoNoFallback).1 ⟨1, 0, 0, [], []⟩ "v1.0.0"
      (by decide) (by decide),
    by decide⟩

/-! Section: Claim C9 -/

/-- Claim C9 (counterexample): with PR enrichment requested and the empty
string supplied as the token argument, the gate accepts it — an empty
string is not a non-empty bearer token — and the run proceeds to enrichment
instead of reporting an error and stopping. -/
theorem claim_c9_counterexample :
    token_gate true (some "") none = .proceed (some "") ∧
    ("" : String).length = 0 :=
  ⟨by decide, by decide⟩

/-- Claim C9 (amended): PR enrichment requires a PRESENT token — emptiness
is never checked: whenever enrichment is requested and no token is supplied
(no --gh-token argument and GH_TOKEN unset), the gate stops the run before
any tag resolution (the outcome is independent of the repository), while any
supplied token, the empty string included, proceeds to enrichment. -/
theorem token_gate_spec (gh_token env_gh_token : Option String) (repo : Repo)
    (h1 : gh_token = none) (h2 : env_gh_token = none) :
    token_gate true gh_token env_gh_token = .stop ∧
    run_to_tag true gh_token env_gh_token repo = none ∧
    (∀ t, token_gate true (some t) env_gh_token = .proceed (some t)) := by
  subst h1
  subst h2
  exact ⟨rfl, rfl, fun t => rfl⟩

/-- Witness for C9 with no token from either source. -/
theorem token_gate_spec_witness :
    token_gate true none none = .stop ∧
    run_to_tag true none none repoNoFallback = none ∧
    (∀ t, token_gate true (some t) none = .proceed (some t)) :=
  token_gate_spec none none repoNoFallback rfl rfl

/-! Section: Claim C10 -/

/-- Claim C10: with the repository refresh enabled (no_fetch = false): when
PR enrichment is not requested the refresh is awaited before tag resolution
and before the commit walk; when PR enrichment is requested the refresh task
is spawned before enrichment starts, the refresh is never awaited on its own
(no awaitFetch event) — both tasks are joined in the single tokio::join! —
and that join precedes changelog formatting; moreover the spawned refresh
owns repository handle 1 while every object-graph read (tag resolution,
commit walk) runs on handle 0, so the refresh never shares a mutable
repository handle with the reads. -/
theorem main_trace_spec (no_fetch use_pr : Bool) (h : no_fetch = false) :
    (use_pr = false →
      precedes .awaitFetch (.resolveTags 0) (main_trace no_fetch use_pr) ∧
      precedes .awaitFetch (.walkCommits 0) (main_trace no_fetch use_pr)) ∧
    (use_pr = true →
      precedes (.spawnFetch 1) .startEnrich (main_trace no_fetch use_pr) ∧
      precedes .startEnrich .joinFetchEnrich (main_trace no_fetch use_pr) ∧
      precedes .joinFetchEnrich .doFormat (main_trace no_fetch use_pr) ∧
      Ev.awaitFetch ∉ main_trace no_fetch use_pr ∧
      (∀ hdl, (Ev.resolveTags hdl ∈ main_trace no_fetch use_pr ∨
        Ev.walkCommits hdl ∈ main_trace no_fetch use_pr) → hdl ≠ 1)) := by
  subst h
  constructor
  · intro hp
    subst hp
    constructor
    · exact ⟨[.spawnFetch 1], [], [.walkCommits 0, .doFormat], by decide⟩
    · exact ⟨[.spawnFetch 1], [.resolveTags 0], [.doFormat], by decide⟩
  · intro hp
    subst hp
    refine ⟨⟨[], [.resolveTags 0, .walkCommits 0], [.joinFetchEnrich, .doFormat], by decide⟩,
      ⟨[.spawnFetch 1, .resolveTags 0, .walkCommits 0], [], [.doFormat], by decide⟩,
      ⟨[.spawnFetch 1, .resolveTags 0, .walkCommits 0, .startEnrich], [], [], by decide⟩,
      by decide, ?_⟩
    intro hdl hm
    rcases hm with hm | hm <;> simp [main_trace] at hm <;> omega

/-- Witness for C10 at both enrichment settings. -/
theorem main_trace_spec_witness :
    (precedes .awaitFetch (.resolveTags 0) (main_trace false false) ∧
      precedes .awaitFetch (.walkCommits 0) (main_trace false false)) ∧
    (precedes (.spawnFetch 1) .startEnrich (main_trace false true) ∧
      precedes .startEnrich .joinFetchEnrich (main_trace false true) ∧
      precedes .joinFetchEnrich .doFormat (main_trace false true) ∧
      Ev.awaitFetch ∉ main_trace false true ∧
      (∀ hdl, (Ev.resolveTags hdl ∈ main_trace false true ∨
        Ev.walkCommits hdl ∈ main_trace false true) → hdl ≠ 1)) :=
  ⟨(main_trace_spec false false rfl).1 rfl, (main_trace_spec false true rfl).2 rfl⟩
